import Mathlib

/-!
Verification of the in-memory tabular search engine of `server.py`
(Rohini lookup): text normalization, column-role classification,
autocomplete (`suggest`), exact-then-fallback lookup (`lookup`),
metadata (`meta`) and the load/reload lifecycle.

The Python source manipulates Unicode strings through `unicodedata`
(NFKD decomposition, combining-mark categories), `str.lower`,
`str.strip`, `str.isdigit`, `str.isalpha`, and the `re` module
(via `pandas.Series.str.contains` / `str.fullmatch`).  These library
functions are modelled here on a finite, explicitly-tabled fragment of
Unicode (ASCII, a selection of Latin letters with diacritics, the
combining-mark block U+0300..U+036F, and a selection of Devanagari
characters), which is the alphabet the claims and the repository's data
exercise.  Each model notes the fragment it covers.
-/

/-! ## Unicode fragment: categories, decomposition, case mapping -/

/-- Model of Python `str.strip` whitespace at the character level
(ASCII whitespace fragment of Unicode whitespace). -/
def isSpaceChar (c : Char) : Bool :=
  c == ' ' || c == '\t' || c == '\n' || c == '\x0d' || c == '\x0b' || c == '\x0c'

/-- Model of `unicodedata.category(ch) == "Mn"` (non-spacing combining
marks).  Fragment: the combining diacritical block U+0300..U+036F plus
the Devanagari non-spacing signs (nukta, the Mn vowel signs, virama,
stress signs and the Mn vocalic signs).  Spacing combining signs (Mc,
e.g. U+093E..U+0940) are deliberately not included: `strip_marks`
removes only category Mn. -/
def isMn (c : Char) : Bool :=
  decide ((0x300 ≤ c.toNat ∧ c.toNat ≤ 0x36F) ∨
    c.toNat = 0x93C ∨ c.toNat = 0x941 ∨ c.toNat = 0x942 ∨ c.toNat = 0x943 ∨
    c.toNat = 0x944 ∨ c.toNat = 0x945 ∨ c.toNat = 0x946 ∨ c.toNat = 0x947 ∨
    c.toNat = 0x948 ∨ c.toNat = 0x94D ∨ c.toNat = 0x951 ∨ c.toNat = 0x952 ∨
    c.toNat = 0x962 ∨ c.toNat = 0x963)

/-- Table fragment of the NFKD decomposition mapping: characters with a
(fully expanded) canonical or compatibility decomposition.  Characters
absent from the table decompose to themselves. -/
def decompTable : List (Char × List Char) :=
  [ ('À', ['A', '̀']), ('Á', ['A', '́']), ('Â', ['A', '̂']),
    ('Ã', ['A', '̃']), ('Ä', ['A', '̈']), ('Å', ['A', '̊']),
    ('Ç', ['C', '̧']), ('È', ['E', '̀']), ('É', ['E', '́']),
    ('Ê', ['E', '̂']), ('Ë', ['E', '̈']), ('Ì', ['I', '̀']),
    ('Í', ['I', '́']), ('Î', ['I', '̂']), ('Ï', ['I', '̈']),
    ('Ñ', ['N', '̃']), ('Ò', ['O', '̀']), ('Ó', ['O', '́']),
    ('Ô', ['O', '̂']), ('Õ', ['O', '̃']), ('Ö', ['O', '̈']),
    ('Ù', ['U', '̀']), ('Ú', ['U', '́']), ('Û', ['U', '̂']),
    ('Ü', ['U', '̈']), ('Ý', ['Y', '́']),
    ('à', ['a', '̀']), ('á', ['a', '́']), ('â', ['a', '̂']),
    ('ã', ['a', '̃']), ('ä', ['a', '̈']), ('å', ['a', '̊']),
    ('ç', ['c', '̧']), ('è', ['e', '̀']), ('é', ['e', '́']),
    ('ê', ['e', '̂']), ('ë', ['e', '̈']), ('ì', ['i', '̀']),
    ('í', ['i', '́']), ('î', ['i', '̂']), ('ï', ['i', '̈']),
    ('ñ', ['n', '̃']), ('ò', ['o', '̀']), ('ó', ['o', '́']),
    ('ô', ['o', '̂']), ('õ', ['o', '̃']), ('ö', ['o', '̈']),
    ('ù', ['u', '̀']), ('ú', ['u', '́']), ('û', ['u', '̂']),
    ('ü', ['u', '̈']), ('ý', ['y', '́']), ('ÿ', ['y', '̈']),
    ('İ', ['I', '̇']),            -- İ : the sole char whose lower is multi-char
    ('K', ['K']),                      -- Kelvin sign
    ('Å', ['A', '̊']),            -- Angstrom sign
    ('ﬁ', ['f', 'i']), ('ﬀ', ['f', 'f']),   -- compatibility ligatures
    ('²', ['2']), ('¹', ['1']),
    ('ऩ', ['न', '़']),       -- Devanagari nnna = na + nukta
    ('क़', ['क', '़']),       -- Devanagari qa  = ka + nukta
    ('ज़', ['ज', '़']) ]      -- Devanagari za  = ja + nukta

/-- Model of NFKD decomposition of a single character
(`unicodedata.normalize("NFKD", ·)` restricted to one code point):
table lookup, default is the character itself. -/
def decomp (c : Char) : List Char :=
  match decompTable.find? (fun p => p.1 == c) with
  | some p => p.2
  | none => [c]

/-- Model of Python `str.lower` at the character level: the ASCII range
A-Z is shifted to a-z; every other character of the fragment (including
all Devanagari characters, which have no case) is fixed.  The one
Unicode character with a multi-character `lower` (U+0130) never reaches
`lower` inside `strip_marks`, because NFKD decomposes it first. -/
def pyLower (c : Char) : Char :=
  if 65 ≤ c.toNat ∧ c.toNat ≤ 90 then Char.ofNat (c.toNat + 32) else c

/-- NFKD normalization of a string (as a list of code points):
concatenation of the per-character decompositions.  The fragment does
not model canonical reordering of adjacent marks, which is irrelevant
to the functions verified here (marks are removed immediately after). -/
def nfkd : List Char → List Char
  | [] => []
  | c :: cs => decomp c ++ nfkd cs

/-- The mark-removal step of `strip_marks`:
`[ch for ch in norm if unicodedata.category(ch) != "Mn"]`. -/
def removeMarks (l : List Char) : List Char :=
  l.filter (fun c => !isMn c)

/-- Model of Python `str.lower` on a string. -/
def lowerStr (l : List Char) : List Char :=
  l.map pyLower

/-- Model of Python `str.strip()`: remove leading and trailing
whitespace. -/
def pyTrim (l : List Char) : List Char :=
  ((l.dropWhile isSpaceChar).reverse.dropWhile isSpaceChar).reverse

/-- `strip_marks` from `server.py` (the Text Normalizer `normalize`):
NFKD-decompose, drop non-spacing marks, lowercase, strip.  The
non-string branch (`text is None`) is outside the model: inputs here
are strings. -/
def strip_marks (s : String) : String :=
  ⟨pyTrim (lowerStr (removeMarks (nfkd s.data)))⟩

/-- Python `str.strip()` on a `String`. -/
def pyStrip (s : String) : String := ⟨pyTrim s.data⟩

/-- Python `str.lower()` on a `String`. -/
def pyLowerStr (s : String) : String := ⟨lowerStr s.data⟩

example : strip_marks "  Café  " = "cafe" := by decide
example : strip_marks "CAFE" = "cafe" := by decide
example : pyStrip " a b " = "a b" := by decide

/-! ## Numeric helpers for the Column Role Classifier

Exact rational arithmetic models the Python float arithmetic of the
classifier (all the quantities involved are small exact fractions).
Addition and division are spelled through `Rat.divInt` on numerators
and denominators so that concrete instances reduce inside the kernel;
`qadd_eq`, `qdiv_eq` and `qmean_eq` prove they are the field
operations of `ℚ`. -/

/-- Rational addition, via numerators and denominators. -/
def qadd (a b : ℚ) : ℚ := Rat.divInt (a.num * b.den + b.num * a.den) (a.den * b.den)

/-- Rational division, via numerators and denominators. -/
def qdiv (a b : ℚ) : ℚ := Rat.divInt (a.num * b.den) (a.den * b.num)

/-- Sum of a list of rationals. -/
def qsum (l : List ℚ) : ℚ := l.foldr qadd 0

theorem qadd_eq (a b : ℚ) : qadd a b = a + b := by
  unfold qadd
  conv_rhs => rw [← Rat.num_divInt_den a, ← Rat.num_divInt_den b]
  rw [Rat.divInt_add_divInt _ _ (by exact_mod_cast a.den_nz) (by exact_mod_cast b.den_nz)]

theorem qdiv_eq (a b : ℚ) : qdiv a b = a / b := by
  unfold qdiv
  rw [Rat.div_def']

theorem qsum_eq (l : List ℚ) : qsum l = l.sum := by
  unfold qsum
  induction l with
  | nil => rfl
  | cons x xs ih => rw [List.foldr_cons, qadd_eq, ih, List.sum_cons]

/-- Mean of a list of rationals, as pandas `Series.mean()`:
division by zero (empty series, whose pandas mean is NaN) yields `0`,
which compares to every threshold the way NaN does (`False`). -/
def qmean (l : List ℚ) : ℚ := qdiv (qsum l) (l.length : ℚ)

theorem qmean_eq (l : List ℚ) : qmean l = l.sum / l.length := by
  unfold qmean
  rw [qdiv_eq, qsum_eq]

/-- Model of `re.fullmatch(r"^[A-Z]{2,4}[0-9]{5,8}$", s)` as a Boolean:
2 to 4 ASCII uppercase letters followed by 5 to 8 ASCII digits and
nothing else. -/
def epicMatch (s : String) : Bool :=
  let u := s.data.takeWhile (fun c => c.toNat ≥ 65 && c.toNat ≤ 90)
  let d := s.data.dropWhile (fun c => c.toNat ≥ 65 && c.toNat ≤ 90)
  2 ≤ u.length && u.length ≤ 4 &&
    d.all (fun c => c.toNat ≥ 48 && c.toNat ≤ 57) &&
    5 ≤ d.length && d.length ≤ 8

example : epicMatch "AB12345" = true := by decide
example : epicMatch "AB1234" = false := by decide
example : epicMatch "hello" = false := by decide

/-- `digit_ratio` from `_is_probably_epic`: strip the cell, then the
fraction of its characters that are digits (`str.isdigit`, ASCII digit
fragment); the empty cell scores `0`. -/
def digitFrac (x : String) : ℚ :=
  let y := pyStrip x
  if y = "" then 0
  else qdiv (y.data.countP (fun c => c.toNat ≥ 48 && c.toNat ≤ 57) : ℚ)
    (max 1 y.data.length : ℚ)

/-- `_alpha_ratio` from `server.py`: the fraction of characters of the
cell that are alphabetic (`str.isalpha`; fragment: ASCII letters and
Devanagari letters U+0904..U+0939, U+0958..U+095F — combining signs and
digits are not alphabetic). -/
def _alpha_ratio (x : String) : ℚ :=
  if x.data.length = 0 then 0
  else qdiv (x.data.countP (fun c : Char =>
      (c.toNat ≥ 65 && c.toNat ≤ 90) || (c.toNat ≥ 97 && c.toNat ≤ 122) ||
      (c.toNat ≥ 0x904 && c.toNat ≤ 0x939) ||
      (c.toNat ≥ 0x958 && c.toNat ≤ 0x95F)) : ℚ)
    (x.data.length : ℚ)

/-- The deterministic bounded sample of `pandas.Series.sample(min(len, 300),
random_state=0)` (and `random_state=1`): a fixed pseudorandom selection of
`min(len, 300)` cells.  When the series has at most 300 cells the sample
is a permutation of the whole series, so the mean of any per-cell
function over it equals the mean over the series; the model takes the
first `min(len, 300)` cells, which has the same mean in that case.  The
selection made for longer series is not modelled further: the claims
only fix its size bound and determinism. -/
def sample300 (l : List α) : List α := l.take 300

/-- `_is_probably_epic` from `server.py`: a column (list of its cells)
is identifier-like if at least half of all its cells fully match the
EPIC pattern, or the mean digit fraction over the deterministic sample
is at least one half. -/
def _is_probably_epic (cells : List String) : Bool :=
  let matchRate := qmean (cells.map (fun v => if epicMatch v then (1 : ℚ) else 0))
  let digitRate := qmean ((sample300 cells).map digitFrac)
  decide (Rat.divInt 1 2 ≤ matchRate) || decide (Rat.divInt 1 2 ≤ digitRate)

example : _is_probably_epic ["AB12345", "CD23456"] = true := by decide
example : _is_probably_epic ["hello", "world"] = false := by decide
example : _is_probably_epic ["12", "x"] = true := by decide

/-! ## The table (pandas `DataFrame` of string cells) -/

/-- A loaded table, as produced by `pd.read_csv(..., dtype=str,
na_filter=False)`: named columns over rows of string cells.  Each row
is expected to have exactly `cols.length` cells; out-of-range access
is modelled as the empty string. -/
structure Frame where
  cols : List String
  rows : List (List String)
deriving Repr, DecidableEq

/-- `df[c]` : the cells of column `c` in row order (the first column of
that name, when present; `[]` for a missing column — the verified flows
only access columns that exist). -/
def getCol (f : Frame) (c : String) : List String :=
  match f.cols.findIdx? (fun c' => c' == c) with
  | some i => f.rows.map (fun r => r.getD i "")
  | none => []

/-- `df[c] = vals` : overwrite column `c` if present, else append it as
the last column (pandas assignment semantics). -/
def setCol (f : Frame) (c : String) (vals : List String) : Frame :=
  match f.cols.findIdx? (fun c' => c' == c) with
  | some i => ⟨f.cols, (f.rows.zip vals).map (fun rv => rv.1.set i rv.2)⟩
  | none => ⟨f.cols ++ [c], (f.rows.zip vals).map (fun rv => rv.1 ++ [rv.2])⟩

/-- `df[mask]` : keep the rows at the positions where the Boolean mask
holds. -/
def maskFilter (f : Frame) (mask : List Bool) : Frame :=
  ⟨f.cols, ((f.rows.zip mask).filter (fun rb => rb.2)).map (fun rb => rb.1)⟩

/-- `Series.drop_duplicates()` with pandas' default `keep="first"`:
first occurrence of each value survives, in order. -/
def pdDropDup : List String → List String :=
  go []
where
  /-- Worker carrying the set of values already emitted. -/
  go (seen : List String) : List String → List String
    | [] => []
    | x :: xs => if x ∈ seen then go seen xs else x :: go (x :: seen) xs

example : pdDropDup ["a", "b", "a", "c", "b"] = ["a", "b", "c"] := by decide

/-! ## Regular expressions

`pandas.Series.str.contains(pat)` and `.str.fullmatch(pat)` interpret
`pat` with Python `re` semantics (`regex=True` is the pandas default —
the pattern is NOT a literal substring).  The engine below models the
fragment of Python `re` that the verified code paths can reach:
literal characters, the wildcard `.`, grouping `(...)`, alternation
`|`, the quantifiers `*`, `+`, `?`, and escapes of punctuation.
Patterns outside the fragment (character classes, anchors, repetition
braces, a quantifier applied to a quantifier, and malformed patterns
such as an unmatched parenthesis — the last being exactly what Python
rejects with `re.error`) make the parser return `none`; `re.error` on
an invalid pattern is the behavior several claims turn on. -/

/-- Abstract regular expressions. -/
inductive RE where
  | fail                      -- matches nothing (∅)
  | eps                       -- matches the empty string
  | dot                       -- any single character
  | chr (c : Char)            -- one literal character
  | seq (a b : RE)            -- concatenation
  | alt (a b : RE)            -- alternation
  | star (a : RE)             -- Kleene star
deriving Repr, DecidableEq

/-- The language of a regular expression. -/
inductive RMatch : RE → List Char → Prop where
  | eps : RMatch .eps []
  | dot (c : Char) : RMatch .dot [c]
  | chr (c : Char) : RMatch (.chr c) [c]
  | seq {a b s t} : RMatch a s → RMatch b t → RMatch (.seq a b) (s ++ t)
  | altL {a b s} : RMatch a s → RMatch (.alt a b) s
  | altR {a b s} : RMatch b s → RMatch (.alt a b) s
  | starNil {a} : RMatch (.star a) []
  | starCons {a s t} : RMatch a s → RMatch (.star a) t →
      RMatch (.star a) (s ++ t)

/-- Nullability: does the expression match the empty string? -/
def RE.nullable : RE → Bool
  | .fail => false
  | .eps => true
  | .dot => false
  | .chr _ => false
  | .seq a b => a.nullable && b.nullable
  | .alt a b => a.nullable || b.nullable
  | .star _ => true

/-- Brzozowski derivative with respect to one character. -/
def RE.deriv : RE → Char → RE
  | .fail, _ => .fail
  | .eps, _ => .fail
  | .dot, _ => .eps
  | .chr c, x => if c == x then .eps else .fail
  | .seq a b, x =>
      if a.nullable then .alt (.seq (a.deriv x) b) (b.deriv x)
      else .seq (a.deriv x) b
  | .alt a b, x => .alt (a.deriv x) (b.deriv x)
  | .star a, x => .seq (a.deriv x) (.star a)

/-- Full-match decision by iterated derivatives. -/
def reMatch (r : RE) (s : List Char) : Bool :=
  (s.foldl RE.deriv r).nullable

/-- Model of `re.search` (the semantics of `Series.str.contains`):
some contiguous substring, of any position and length, fully matches. -/
def reSearch (r : RE) (s : List Char) : Bool :=
  (List.range (s.length + 1)).any fun i =>
    (List.range (s.length - i + 1)).any fun k =>
      reMatch r ((s.drop i).take k)

theorem nullable_of_rmatch_nil {r : RE} (h : RMatch r []) : r.nullable = true := by
  generalize hs : ([] : List Char) = s at h
  induction h with
  | eps => rfl
  | dot c => simp at hs
  | chr c => simp at hs
  | seq h1 h2 ih1 ih2 =>
    rcases List.append_eq_nil.mp hs.symm with ⟨e1, e2⟩
    simp [RE.nullable, ih1 e1.symm, ih2 e2.symm]
  | altL h ih => simp [RE.nullable, ih hs]
  | altR h ih => simp [RE.nullable, ih hs]
  | starNil => rfl
  | starCons h1 h2 ih1 ih2 => rfl

theorem rmatch_nil_of_nullable {r : RE} (h : r.nullable = true) : RMatch r [] := by
  induction r with
  | fail => simp [RE.nullable] at h
  | eps => exact .eps
  | dot => simp [RE.nullable] at h
  | chr c => simp [RE.nullable] at h
  | seq a b iha ihb =>
    simp [RE.nullable] at h
    exact RMatch.seq (s := []) (t := []) (iha h.1) (ihb h.2)
  | alt a b iha ihb =>
    simp [RE.nullable] at h
    rcases h with h | h
    · exact .altL (iha h)
    · exact .altR (ihb h)
  | star a iha => exact .starNil

theorem rmatch_of_deriv {r : RE} {c : Char} {s : List Char}
    (h : RMatch (r.deriv c) s) : RMatch r (c :: s) := by
  induction r generalizing s with
  | fail => exact absurd h (by intro h; cases h)
  | eps => exact absurd h (by intro h; cases h)
  | dot =>
    cases h
    exact .dot c
  | chr c' =>
    by_cases hc : c' == c
    · rw [RE.deriv, if_pos hc] at h
      cases h
      rw [show c' = c from by simpa using hc]
      exact .chr c
    · rw [RE.deriv, if_neg hc] at h
      cases h
  | seq a b iha ihb =>
    rw [RE.deriv] at h
    by_cases hn : a.nullable
    · rw [if_pos hn] at h
      cases h with
      | altL h =>
        cases h with
        | seq h1 h2 => exact RMatch.seq (s := c :: _) (iha h1) h2
      | altR h =>
        exact RMatch.seq (s := []) (rmatch_nil_of_nullable hn) (ihb h)
    · rw [if_neg hn] at h
      cases h with
      | seq h1 h2 => exact RMatch.seq (s := c :: _) (iha h1) h2
  | alt a b iha ihb =>
    cases h with
    | altL h => exact .altL (iha h)
    | altR h => exact .altR (ihb h)
  | star a iha =>
    cases h with
    | seq h1 h2 => exact RMatch.starCons (s := c :: _) (iha h1) h2

theorem deriv_of_rmatch {r : RE} {c : Char} {s : List Char}
    (h : RMatch r (c :: s)) : RMatch (r.deriv c) s := by
  generalize hcs : c :: s = u at h
  induction h generalizing s with
  | eps => simp at hcs
  | dot c' =>
    obtain ⟨h1, h2⟩ := List.cons.injEq .. ▸ hcs
    subst h2
    exact .eps
  | chr c' =>
    obtain ⟨h1, h2⟩ := List.cons.injEq .. ▸ hcs
    subst h2
    rw [RE.deriv, if_pos (by simp [h1])]
    exact .eps
  | seq h1 h2 ih1 ih2 =>
    rename_i a b u' t
    cases u' with
    | nil =>
      simp at hcs
      rw [RE.deriv, if_pos (nullable_of_rmatch_nil h1)]
      exact .altR (ih2 hcs)
    | cons x xs =>
      rw [List.cons_append] at hcs
      obtain ⟨h1', h2'⟩ := List.cons.injEq .. ▸ hcs
      subst h1'
      rcases h2' with rfl
      by_cases hn : a.nullable
      · rw [RE.deriv, if_pos hn]
        exact .altL (.seq (ih1 rfl) h2)
      · rw [RE.deriv, if_neg hn]
        exact .seq (ih1 rfl) h2
  | altL h ih => exact .altL (ih hcs)
  | altR h ih => exact .altR (ih hcs)
  | starNil => simp at hcs
  | starCons h1 h2 ih1 ih2 =>
    rename_i a u' t
    cases u' with
    | nil =>
      simp at hcs
      exact ih2 hcs
    | cons x xs =>
      rw [List.cons_append] at hcs
      obtain ⟨h1', h2'⟩ := List.cons.injEq .. ▸ hcs
      subst h1'
      rcases h2' with rfl
      rw [RE.deriv]
      exact .seq (ih1 rfl) h2

/-- Correctness of the derivative matcher. -/
theorem reMatch_iff (r : RE) (s : List Char) :
    reMatch r s = true ↔ RMatch r s := by
  induction s generalizing r with
  | nil =>
    unfold reMatch
    simp only [List.foldl_nil]
    exact ⟨rmatch_nil_of_nullable, nullable_of_rmatch_nil⟩
  | cons c cs ih =>
    unfold reMatch at *
    simp only [List.foldl_cons]
    rw [ih (r.deriv c)]
    exact ⟨rmatch_of_deriv, deriv_of_rmatch⟩

/-- The metacharacters of Python `re` (special outside character
classes).  A pattern containing none of these denotes its literal
self. -/
def isRegexMeta (c : Char) : Bool :=
  c == '(' || c == ')' || c == '*' || c == '+' || c == '?' || c == '|' ||
  c == '[' || c == ']' || c == '{' || c == '}' || c == '^' || c == '$' ||
  c == '.' || c == '\\'

/-- Is the character a quantifier? -/
def isQuantCh (c : Char) : Bool := c == '*' || c == '+' || c == '?'

/-- After parsing the inside of a group, require and consume the
closing parenthesis. -/
def closeGroup : Option (RE × List Char) → Option (RE × List Char)
  | some (r, rest) =>
    match rest with
    | c :: rest' => if c == ')' then some (r, rest') else none
    | [] => none
  | none => none

mutual

/-- Pattern parser, alternation level (`a|b`).  `fuel` bounds the
recursion depth; the callers supply enough for any input. -/
def parseAlt : Nat → List Char → Option (RE × List Char)
  | 0, _ => none
  | fuel+1, s =>
    match parseCat fuel s with
    | none => none
    | some (r, rest) =>
      match rest with
      | c :: rest' =>
        if c == '|' then
          match parseAlt fuel rest' with
          | some (r2, rest'') => some (.alt r r2, rest'')
          | none => none
        else some (r, rest)
      | [] => some (r, [])

/-- Pattern parser, concatenation level. -/
def parseCat : Nat → List Char → Option (RE × List Char)
  | 0, _ => none
  | fuel+1, s =>
    match s with
    | [] => some (.eps, [])
    | c :: _ =>
      if c == ')' || c == '|' then some (.eps, s)
      else
        match parseRep fuel s with
        | none => none
        | some (r, rest) =>
          match parseCat fuel rest with
          | none => none
          | some (r2, rest') => some (.seq r r2, rest')

/-- Pattern parser, quantifier level (`a*`, `a+`, `a?`, lazy `a*?`);
a quantifier applied directly to another quantifier is the `re.error`
"multiple repeat". -/
def parseRep : Nat → List Char → Option (RE × List Char)
  | 0, _ => none
  | fuel+1, s =>
    match parseAtom fuel s with
    | none => none
    | some (r, rest) =>
      match rest with
      | [] => some (r, [])
      | q :: rest' =>
        if isQuantCh q then
          let r' := if q == '*' then RE.star r
            else if q == '+' then RE.seq r (.star r)
            else RE.alt r .eps
          match rest' with
          | [] => some (r', [])
          | c2 :: rest'' =>
            if c2 == '?' then
              match rest'' with
              | c3 :: _ => if isQuantCh c3 then none else some (r', rest'')
              | [] => some (r', [])
            else if isQuantCh c2 then none
            else some (r', rest')
        else some (r, rest)

/-- Pattern parser, atom level: a group, the wildcard, an escaped
punctuation character, or a literal character.  Everything else in a
pattern (character classes, anchors, repetition braces, escapes of
alphanumerics) is outside the modelled fragment. -/
def parseAtom : Nat → List Char → Option (RE × List Char)
  | 0, _ => none
  | fuel+1, s =>
    match s with
    | [] => none
    | c :: rest =>
      if c == '(' then closeGroup (parseAlt fuel rest)
      else if c == '.' then some (.dot, rest)
      else if c == '\\' then
        match rest with
        | c2 :: rest' => if c2.isAlphanum then none else some (.chr c2, rest')
        | [] => none
      else if isRegexMeta c then none
      else some (.chr c, rest)

end

/-- Model of `re.compile` on the fragment: parse the whole pattern;
`none` models `re.error` (for malformed patterns, e.g. `"("`) and
marks constructs outside the fragment. -/
def reParse (p : String) : Option RE :=
  match parseAlt (4 * p.data.length + 8) p.data with
  | some (r, []) => some r
  | _ => none

/-- The regular expression matching exactly one literal string. -/
def litRE (l : List Char) : RE :=
  l.foldr (fun c r => RE.seq (.chr c) r) .eps

example : reParse "a.c" = some (.seq (.chr 'a') (.seq .dot (.seq (.chr 'c') .eps))) := by decide
example : reParse "(" = none := by decide
example : reParse "ab" = some (litRE "ab".data) := by decide
example : (reParse "a(b").isNone = true := by decide

theorem rmatch_litRE {l t : List Char} : RMatch (litRE l) t ↔ t = l := by
  induction l generalizing t with
  | nil =>
    constructor
    · intro h
      cases h
      rfl
    · rintro rfl
      exact .eps
  | cons c cs ih =>
    constructor
    · intro h
      cases h with
      | seq h1 h2 =>
        cases h1
        rw [ih.mp h2]
        rfl
    · rintro rfl
      exact RMatch.seq (s := [c]) (.chr c) (ih.mpr rfl)


/-- Searching for a literal pattern is substring containment. -/
theorem reSearch_litRE {l s : List Char} : reSearch (litRE l) s = true ↔ l <:+: s := by
  unfold reSearch
  simp only [List.any_eq_true, List.mem_range]
  constructor
  · rintro ⟨i, hi, k, hk, hm⟩
    have hl : (s.drop i).take k = l := rmatch_litRE.mp ((reMatch_iff _ _).mp hm)
    refine ⟨s.take i, (s.drop i).drop k, ?_⟩
    rw [← hl, List.append_assoc, List.take_append_drop, List.take_append_drop]
  · rintro ⟨u, v, huv⟩
    have hlen : s.length = u.length + (l.length + v.length) := by
      rw [← huv]; simp
    refine ⟨u.length, by omega, l.length, by omega, ?_⟩
    rw [reMatch_iff, rmatch_litRE, ← huv, List.append_assoc, List.drop_left, List.take_left]

theorem not_quant_of_not_meta {c : Char} (h : isRegexMeta c = false) :
    isQuantCh c = false := by
  unfold isRegexMeta at h
  unfold isQuantCh
  simp only [Bool.or_eq_false_iff] at h ⊢
  tauto

theorem parseAtom_lit {c : Char} {cs : List Char} {fuel : Nat}
    (hc : isRegexMeta c = false) (hf : 1 ≤ fuel) :
    parseAtom fuel (c :: cs) = some (.chr c, cs) := by
  obtain ⟨f, rfl⟩ : ∃ f, fuel = f + 1 := ⟨fuel - 1, by omega⟩
  have h' := hc
  unfold isRegexMeta at h'
  simp only [Bool.or_eq_false_iff] at h'
  rw [parseAtom.eq_def]
  simp only []
  rw [if_neg (by simp_all), if_neg (by simp_all), if_neg (by simp_all), if_neg (by simp [hc])]

theorem parseRep_lit {c : Char} {cs : List Char} {fuel : Nat}
    (hc : isRegexMeta c = false) (hcs : ∀ c' ∈ cs, isRegexMeta c' = false)
    (hf : 2 ≤ fuel) :
    parseRep fuel (c :: cs) = some (.chr c, cs) := by
  obtain ⟨f, rfl⟩ : ∃ f, fuel = f + 1 := ⟨fuel - 1, by omega⟩
  rw [parseRep.eq_def]
  simp only []
  rw [parseAtom_lit hc (by omega)]
  cases cs with
  | nil => rfl
  | cons q rest =>
    have hq : isQuantCh q = false :=
      not_quant_of_not_meta (hcs q (List.mem_cons_self q rest))
    simp [hq]

theorem parseCat_lit {l : List Char} {fuel : Nat}
    (h : ∀ c ∈ l, isRegexMeta c = false) (hf : l.length + 2 ≤ fuel) :
    parseCat fuel l = some (litRE l, []) := by
  induction l generalizing fuel with
  | nil =>
    obtain ⟨f, rfl⟩ : ∃ f, fuel = f + 1 := ⟨fuel - 1, by omega⟩
    rfl
  | cons c cs ih =>
    obtain ⟨f, rfl⟩ : ∃ f, fuel = f + 1 := ⟨fuel - 1, by omega⟩
    have hlen : cs.length + 2 ≤ f := by
      simp only [List.length_cons] at hf; omega
    have hc : isRegexMeta c = false := h c (List.mem_cons_self c cs)
    have hcs : ∀ c' ∈ cs, isRegexMeta c' = false :=
      fun c' hc' => h c' (List.mem_cons_of_mem c hc')
    have h' := hc
    unfold isRegexMeta at h'
    simp only [Bool.or_eq_false_iff] at h'
    rw [parseCat.eq_def]
    simp only []
    rw [if_neg (by simp_all)]
    rw [parseRep_lit hc hcs (by omega)]
    simp only []
    rw [ih hcs hlen]
    rfl

theorem parseAlt_lit {l : List Char} {fuel : Nat}
    (h : ∀ c ∈ l, isRegexMeta c = false) (hf : l.length + 3 ≤ fuel) :
    parseAlt fuel l = some (litRE l, []) := by
  obtain ⟨f, rfl⟩ : ∃ f, fuel = f + 1 := ⟨fuel - 1, by omega⟩
  rw [parseAlt.eq_def]
  simp only []
  rw [parseCat_lit h (by omega)]

/-- A pattern free of regex metacharacters compiles to the regular
expression matching exactly that literal string. -/
theorem reParse_lit {p : String} (h : ∀ c ∈ p.data, isRegexMeta c = false) :
    reParse p = some (litRE p.data) := by
  unfold reParse
  rw [parseAlt_lit h (by omega)]

/-! ## Configuration (`server.py` module constants) -/

/-- `PREFERRED_NAME_COLUMNS` from `server.py` (the fixed priority list
of known header names). -/
def PREFERRED_NAME_COLUMNS : List String :=
  ["full name", "fullname",
   "full_name", "name_full", "name",
   "नाम", "नाव", "नाम_हिंदी", "Name", "Full Name", "Full_Name"]

/-- `DISPLAY_COLS_PREFERENCE` from `server.py` (the fixed preferred
display order). -/
def DISPLAY_COLS_PREFERENCE : List String :=
  ["Serial No.",
   "Voter ID",
   "Full Name (Marathi)",
   "Full Name (English)",
   "Relative\x27s Name (Marathi)",
   "Relative\x27s Name (English)",
   "Relationship",
   "Age",
   "Gender",
   "House No.",
   "Electoral Roll Ref"]

/-! ## Column Role Classifier -/

/-- `lower_map = {c.lower(): c for c in df.columns}` from
`pick_name_column`, modelled as its lookup function (the dict is only
ever queried with `in` and `[]`): each column binds its lowercased
name, a later column with the same lowercased name overwriting an
earlier one, exactly as in the Python dict comprehension. -/
def buildLowerMap (cols : List String) : String → Option String :=
  cols.foldl (fun m c => fun k => if pyLowerStr c == k then some c else m k)
    (fun _ => none)

/-- The priority-list scan of `pick_name_column`: the first candidate
(in priority order) whose lowercase appears in `lower_map`, resolved
through the map. -/
def pickByHeader (f : Frame) : Option String :=
  PREFERRED_NAME_COLUMNS.findSome?
    (fun cand => buildLowerMap f.cols (pyLowerStr cand))

/-- The textiness-heuristic fallback loop of `pick_name_column`:
skip identifier-like columns, keep the best strictly-improving mean
alpha fraction (sampled), and finish with Python's
`return best or df.columns[0]` — which falls back to the first column
both when `best` is `None` and when `best` is the falsy empty string.
(`df.columns[0]` of a frame with no columns raises in Python;
that unreachable case is modelled as `""`.) -/
def heuristicStep (f : Frame) (acc : Option String × ℚ) (c : String) :
    Option String × ℚ :=
  let cells := getCol f c
  if _is_probably_epic cells then acc
  else
    let score := qmean ((sample300 cells).map _alpha_ratio)
    if acc.2 < score then (some c, score) else acc

def heuristicPick (f : Frame) : String :=
  match (f.cols.foldl (heuristicStep f) (none, -1)).1 with
  | some b => if b = "" then f.cols.headD "" else b
  | none => f.cols.headD ""

/-- `pick_name_column` from `server.py`. The environment override
`FORCE_NAME_COL` is a parameter; `some ""` is falsy in Python
(`if FORCE_NAME_COL and FORCE_NAME_COL in df.columns`), so it is
ignored like `none`. -/
def pick_name_column (override : Option String) (f : Frame) : String :=
  match override with
  | some o =>
    if o ≠ "" ∧ o ∈ f.cols then o
    else
      match pickByHeader f with
      | some c => c
      | none => heuristicPick f
  | none =>
    match pickByHeader f with
    | some c => c
    | none => heuristicPick f

/-- Model of `str.startswith("_")`: the reserved internal-column
marker test. -/
def underscoreMarked (c : String) : Bool :=
  match c.data with
  | '_' :: _ => true
  | _ => false

/-- `build_display_cols` from `server.py`: the name column first, then
the columns of the preference list that exist, then every remaining
column except internal (underscore-marked) ones. -/
def build_display_cols (f : Frame) (name_col : String) : List String :=
  let cols1 : List String :=
    if name_col ∈ ([] : List String) then [] else [name_col]
  let cols2 := DISPLAY_COLS_PREFERENCE.foldl
    (fun acc c => if c ∈ f.cols ∧ c ∉ acc then acc ++ [c] else acc) cols1
  f.cols.foldl
    (fun acc c => if c ∉ acc ∧ ¬ underscoreMarked c then acc ++ [c] else acc) cols2

/-! ## Dataset Store: load, reload, and the three query operations -/

/-- The process-wide state of `server.py`: the globals `DF`,
`NAME_COL`, `DISPLAY_COLS`. -/
structure DState where
  df : Frame
  nameCol : String
  displayCols : List String
deriving Repr, DecidableEq

/-- The schema-specific name-column choice at the top of
`load_dataset` (lines 141-149): the three hardcoded headers take
precedence, in this order, and only if none is present does
`pick_name_column` run (and with it the override and the priority
list). -/
def chooseNameCol (override : Option String) (df : Frame) : String :=
  if "Full Name (English)" ∈ df.cols then "Full Name (English)"
  else if "Full Name (Marathi)" ∈ df.cols then "Full Name (Marathi)"
  else if "Full Name" ∈ df.cols then "Full Name"
  else pick_name_column override df

/-- `load_dataset` from `server.py`.  `src` is the outcome of
`os.path.exists` + `_read_csv_with_fallbacks` (external I/O): `.error`
when the file is missing or unreadable in every supported encoding.
The function mirrors the source's order: everything is computed from
the local `df` first and the three globals are assigned only at the
end, so a failure leaves the old state untouched.
(`df[name_col].astype(str)` is the identity on a frame of string
cells and has no separate model.) -/
def load_dataset (override : Option String) (src : Except String Frame) (st : DState) :
    Except String Unit × DState :=
  match src with
  | .error e => (.error e, st)
  | .ok df0 =>
    let name_col := chooseNameCol override df0
    let df1 := setCol df0 "_name_key"
      ((getCol df0 name_col).map (fun v => pyLowerStr (pyStrip v)))
    let df2 := setCol df1 "_name_norm" ((getCol df1 name_col).map strip_marks)
    (.ok (), ⟨df2, name_col, build_display_cols df2 name_col⟩)

/-- `reload_ds` (`POST /api/reload`): run the load pipeline and report
`{ok, name_col, total_rows}`; an exception propagates to the caller. -/
def reload_ds (override : Option String) (src : Except String Frame) (st : DState) :
    Except String (String × Nat) × DState :=
  match load_dataset override src st with
  | (.error e, st') => (.error e, st')
  | (.ok _, st') => (.ok (st'.nameCol, st'.df.rows.length), st')

/-- The errors a query operation can raise: `HTTPException(400,
"Missing name")`, and `re.error` escaping from
`pandas.Series.str.contains` on an invalid pattern. -/
inductive ApiErr where
  | invalidInput
  | regexError
deriving Repr, DecidableEq

/-- One row of a `lookup` response:
`{k: v for k, v in row.items() if not str(k).startswith("_")}` —
the row as an ordered column-to-cell record, internal columns
dropped. -/
def rowRecord (cols : List String) (r : List String) : List (String × String) :=
  (cols.zip r).filter (fun p => !underscoreMarked p.1)

/-- `meta` (`GET /api/meta`): name column, non-internal columns, row
count.  Stateless reads only, hence the returned state. -/
def meta (st : DState) : DState × (String × List String × Nat) :=
  (st, (st.nameCol, st.df.cols.filter (fun c => !underscoreMarked c), st.df.rows.length))

/-- `suggest` (`GET /api/suggest`): autocomplete.  Empty normalized
query: first `limit` distinct non-empty stripped name values.
Otherwise: the normalized query is handed to
`Series.str.contains(query, na=False)`, which compiles it as a regular
expression (pandas default `regex=True`) — an invalid pattern raises
`re.error`; the matching rows' stripped name values are deduplicated
and truncated.  `limit` is modelled as a count (Python would accept a
negative `head` argument with from-the-end semantics). -/
def suggest (st : DState) (q : String) (limit : Nat) :
    DState × Except ApiErr (List String) :=
  let query := strip_marks q
  if query = "" then
    let names := (getCol st.df st.nameCol).map pyStrip
    (st, .ok ((pdDropDup (names.filter (fun v => v ≠ ""))).take limit))
  else
    match reParse query with
    | none => (st, .error .regexError)
    | some r =>
      let mask := (getCol st.df "_name_norm").map (fun v => reSearch r v.data)
      let names := (getCol (maskFilter st.df mask) st.nameCol).map pyStrip
      (st, .ok ((pdDropDup names).take limit))

/-- `lookup` (`GET /api/lookup`): blank input is a 400; otherwise all
rows whose `_name_key` equals the stripped lowercased input; if none,
fall back to `Series.str.contains(key, na=False)` over the stripped
lowercased name values — again with regex semantics, so an invalid
pattern raises `re.error` on this path. -/
def lookup (st : DState) (name : String) :
    DState × Except ApiErr (Nat × List (List (String × String))) :=
  let nm := pyStrip name
  if nm = "" then (st, .error .invalidInput)
  else
    let key := pyLowerStr nm
    let exact := maskFilter st.df ((getCol st.df "_name_key").map (fun v => v == key))
    if exact.rows.isEmpty then
      match reParse key with
      | none => (st, .error .regexError)
      | some r =>
        let mask := (getCol st.df st.nameCol).map
          (fun v => reSearch r (pyLowerStr (pyStrip v)).data)
        let res := maskFilter st.df mask
        let rows := res.rows.map (rowRecord st.df.cols)
        (st, .ok (rows.length, rows))
    else
      let rows := exact.rows.map (rowRecord st.df.cols)
      (st, .ok (rows.length, rows))

deriving instance DecidableEq for Except

/-! ## Idempotence of the Text Normalizer -/

/-- A character fixed by every stage of `strip_marks`: it decomposes
to itself, is not a combining mark, and is already lowercase. -/
def GoodChar (c : Char) : Prop :=
  decomp c = [c] ∧ isMn c = false ∧ pyLower c = c

instance (c : Char) : Decidable (GoodChar c) := by
  unfold GoodChar
  infer_instance

theorem pyLower_fix {c : Char} (h : ¬(65 ≤ c.toNat ∧ c.toNat ≤ 90)) : pyLower c = c := by
  unfold pyLower
  rw [if_neg h]

theorem char_toNat_ofNat {n : Nat} (h : n < 0xd800) : (Char.ofNat n).toNat = n := by
  have hv : n.isValidChar := Or.inl h
  rw [Char.ofNat, dif_pos hv]
  rfl

theorem pyLower_toNat {c : Char} (h : 65 ≤ c.toNat ∧ c.toNat ≤ 90) :
    (pyLower c).toNat = c.toNat + 32 := by
  unfold pyLower
  rw [if_pos h, char_toNat_ofNat (by omega)]

theorem decomp_self_of_ascii {c : Char} (h : c.toNat < 0x80) : decomp c = [c] := by
  have hall : ∀ p ∈ decompTable, 0x80 ≤ p.1.toNat := by decide
  unfold decomp
  rw [List.find?_eq_none.mpr]
  intro p hp
  have := hall p hp
  simp only [beq_iff_eq]
  intro hpc
  rw [hpc] at this
  omega

theorem isMn_false_of_ascii {c : Char} (h : c.toNat < 0x300) : isMn c = false := by
  unfold isMn
  apply decide_eq_false
  rintro (⟨h1, h2⟩ | h1 | h1 | h1 | h1 | h1 | h1 | h1 | h1 | h1 | h1 | h1 | h1 | h1) <;> omega

theorem goodChar_pyLower_table : ∀ p ∈ decompTable, ∀ d ∈ p.2,
    isMn d = false → GoodChar (pyLower d) := by decide

theorem goodChar_of_decomp {c d : Char} (hd : d ∈ decomp c) (hmn : isMn d = false) :
    GoodChar (pyLower d) := by
  unfold decomp at hd
  cases hfind : decompTable.find? (fun p => p.1 == c) with
  | some p =>
    rw [hfind] at hd
    exact goodChar_pyLower_table p (List.mem_of_find?_eq_some hfind) d hd hmn
  | none =>
    rw [hfind] at hd
    rcases List.mem_singleton.mp hd with rfl
    by_cases hup : 65 ≤ d.toNat ∧ d.toNat ≤ 90
    · have ht := pyLower_toNat hup
      exact ⟨decomp_self_of_ascii (by omega), isMn_false_of_ascii (by omega),
        pyLower_fix (by omega)⟩
    · have hfix : pyLower d = d := pyLower_fix hup
      rw [hfix]
      refine ⟨?_, hmn, hfix⟩
      unfold decomp
      rw [hfind]

theorem mem_nfkd {c : Char} {l : List Char} (h : c ∈ nfkd l) :
    ∃ e ∈ l, c ∈ decomp e := by
  induction l with
  | nil => cases h
  | cons e es ih =>
    rw [nfkd, List.mem_append] at h
    rcases h with h | h
    · exact ⟨e, List.mem_cons_self e es, h⟩
    · obtain ⟨e', he', hc⟩ := ih h
      exact ⟨e', List.mem_cons_of_mem e he', hc⟩

/-- Every character surviving the decompose-strip-lower pipeline is
fixed by every stage. -/
theorem goodChar_of_mem_pipeline {c : Char} {l : List Char}
    (h : c ∈ lowerStr (removeMarks (nfkd l))) : GoodChar c := by
  obtain ⟨d, hd, rfl⟩ := List.mem_map.mp h
  rw [removeMarks, List.mem_filter] at hd
  obtain ⟨hdn, hdm⟩ := hd
  obtain ⟨e, _, hde⟩ := mem_nfkd hdn
  exact goodChar_of_decomp hde (by simpa using hdm)

theorem nfkd_fixed {l : List Char} (h : ∀ c ∈ l, decomp c = [c]) : nfkd l = l := by
  induction l with
  | nil => rfl
  | cons c cs ih =>
    rw [nfkd, h c (List.mem_cons_self c cs), ih (fun c' hc' => h c' (List.mem_cons_of_mem c hc'))]
    rfl

theorem lowerStr_fixed {l : List Char} (h : ∀ c ∈ l, pyLower c = c) : lowerStr l = l := by
  unfold lowerStr
  induction l with
  | nil => rfl
  | cons c cs ih =>
    rw [List.map_cons, h c (List.mem_cons_self c cs),
      ih (fun c' hc' => h c' (List.mem_cons_of_mem c hc'))]

theorem dropWhile_head_false {p : α → Bool} {l : List α} {a : α} {t : List α}
    (h : l.dropWhile p = a :: t) : p a = false := by
  induction l with
  | nil => simp at h
  | cons b bs ih =>
    rw [List.dropWhile_cons] at h
    by_cases hb : p b
    · rw [if_pos (by simp [hb])] at h
      exact ih h
    · rw [if_neg (by simpa using hb)] at h
      obtain ⟨rfl, -⟩ := List.cons.injEq .. ▸ h
      simpa using hb

theorem dropWhile_idem {p : α → Bool} {l : List α} :
    (l.dropWhile p).dropWhile p = l.dropWhile p := by
  cases h : l.dropWhile p with
  | nil => rfl
  | cons a t =>
    rw [List.dropWhile_cons, if_neg (by simp [dropWhile_head_false h])]

theorem pyTrim_idem (l : List Char) : pyTrim (pyTrim l) = pyTrim l := by
  unfold pyTrim
  obtain ⟨pre, hpre⟩ :
      ∃ pre, pre ++ (l.dropWhile isSpaceChar).reverse.dropWhile isSpaceChar
        = (l.dropWhile isSpaceChar).reverse :=
    (List.dropWhile_suffix isSpaceChar).imp (fun _ h => h)
  have hA : ((l.dropWhile isSpaceChar).reverse.dropWhile isSpaceChar).reverse.dropWhile
      isSpaceChar = ((l.dropWhile isSpaceChar).reverse.dropWhile isSpaceChar).reverse := by
    cases hw : ((l.dropWhile isSpaceChar).reverse.dropWhile isSpaceChar).reverse with
    | nil => rfl
    | cons a ys =>
      -- the head of the trimmed list is the head of `dropWhile` of `l`, not a space
      have hm : l.dropWhile isSpaceChar
          = a :: (ys ++ pre.reverse) := by
        have : l.dropWhile isSpaceChar = ((l.dropWhile isSpaceChar).reverse).reverse := by
          rw [List.reverse_reverse]
        rw [this, ← hpre, List.reverse_append, hw]
        rfl
      rw [List.dropWhile_cons, if_neg (by simp [dropWhile_head_false hm])]
  rw [hA, List.reverse_reverse, dropWhile_idem]

theorem pipeline_fixed_of_good {l : List Char} (hl : ∀ c ∈ l, GoodChar c) :
    lowerStr (removeMarks (nfkd l)) = l := by
  rw [nfkd_fixed (fun c hc => (hl c hc).1)]
  unfold removeMarks
  rw [List.filter_eq_self.mpr (fun c hc => by simp [(hl c hc).2.1]),
    lowerStr_fixed (fun c hc => (hl c hc).2.2)]

theorem mem_pyTrim {c : Char} {l : List Char} (h : c ∈ pyTrim l) : c ∈ l := by
  unfold pyTrim at h
  rw [List.mem_reverse] at h
  have h1 := (List.dropWhile_suffix (l := (l.dropWhile isSpaceChar).reverse)
    isSpaceChar).subset h
  rw [List.mem_reverse] at h1
  exact (List.dropWhile_suffix isSpaceChar).subset h1

/-- C7: normalization is idempotent —
`strip_marks (strip_marks x) = strip_marks x` for every string `x`
(NFKD decomposition, removal of non-spacing marks, lowercasing and
trimming, applied twice, agree with one application). -/
theorem C7_normalize_idempotent (s : String) :
    strip_marks (strip_marks s) = strip_marks s := by
  have hgood : ∀ c ∈ pyTrim (lowerStr (removeMarks (nfkd s.data))), GoodChar c :=
    fun c hc => goodChar_of_mem_pipeline (mem_pyTrim hc)
  show (⟨pyTrim (lowerStr (removeMarks (nfkd
      (pyTrim (lowerStr (removeMarks (nfkd s.data)))))))⟩ : String)
    = ⟨pyTrim (lowerStr (removeMarks (nfkd s.data)))⟩
  rw [pipeline_fixed_of_good hgood, pyTrim_idem]

/-! ## Concrete fixtures used by counterexamples and witnesses -/

/-- The initial value of the globals before any load. -/
def emptyState : DState := ⟨⟨[], []⟩, "", []⟩

/-- A one-row table (name value `"abc"`), before loading. -/
def rxFrame : Frame := ⟨["Full Name"], [["abc"]]⟩

/-- The snapshot after loading `rxFrame`. -/
def rxState : DState := (load_dataset none (.ok rxFrame) emptyState).2

/-! ## C9: failed reload leaves the snapshot untouched -/

/-- C9: when the source is missing or unreadable in every encoding,
`reload` surfaces the error to the caller and returns with the
previously loaded snapshot — table, name column and display columns —
completely unchanged (the source assigns the globals only after the
whole pipeline has succeeded). -/
theorem C9_reload_failure_preserves_state (override : Option String)
    (e : String) (st : DState) :
    reload_ds override (.error e) st = (.error e, st) ∧
    (reload_ds override (.error e) st).2.df = st.df ∧
    (reload_ds override (.error e) st).2.nameCol = st.nameCol ∧
    (reload_ds override (.error e) st).2.displayCols = st.displayCols :=
  ⟨rfl, rfl, rfl, rfl⟩

/-! ## C10: queries do not mutate the shared snapshot -/

/-- C10: `suggest`, `lookup` and `meta` never mutate the dataset state:
for every snapshot and every argument, the state after the call is the
state before it (the handlers only read the globals; no in-place
pandas operation appears in them). -/
theorem C10_queries_preserve_state (st : DState) (q : String) (limit : Nat)
    (nm : String) :
    (suggest st q limit).1 = st ∧ (lookup st nm).1 = st ∧ (meta st).1 = st := by
  refine ⟨?_, ?_, rfl⟩
  · simp only [suggest]
    split
    · rfl
    · split <;> rfl
  · simp only [lookup]
    split
    · rfl
    · split
      · split <;> rfl
      · rfl

/-! ## C2: suggest matches the normalized query as a regex, not a literal substring -/

/-- C2 (failing input): on the loaded one-row table with name `"abc"`
(normKey `"abc"`), `suggest("a.c", 100)` returns that row's value even
though `normalize("a.c") = "a.c"` is not a literal substring of the
row's normKey — `Series.str.contains` compiles the query as a regular
expression and `.` matches any character.  This contradicts the
claimed "no row whose normKey lacks the substring is returned". -/
theorem C2_suggest_regex_not_substring :
    (suggest rxState "a.c" 100).2 = .ok ["abc"] ∧
    strip_marks "a.c" = "a.c" ∧
    getCol rxState.df "_name_norm" = ["abc"] ∧
    ¬ ("a.c".data <:+: "abc".data) := by decide

/-! ## C4: per-request operations can fail beyond InvalidInput -/

/-- C4 (failing input): `lookup("(")` — a non-blank input matching no
row — and `suggest("(", 100)` both raise `re.error` (an unhandled 500)
on the loaded one-row table, because the input reaches
`Series.str.contains` as an invalid regular expression; the claim
says the former must succeed with count 0 and that suggest never
fails. -/
theorem C4_regex_error_escapes :
    (lookup rxState "(").2 = .error .regexError ∧
    (suggest rxState "(" 100).2 = .error .regexError ∧
    pyStrip "(" ≠ "" ∧
    reParse "(" = none := by decide

/-! ## C1: resolution order of the name column -/

/-- A table carrying one of the hardcoded schema headers plus a second
column an operator might name in `NAME_COL`. -/
def ovFrame : Frame := ⟨["Full Name (English)", "X"], [["a", "b"]]⟩

/-- C1 (counterexample): the override does NOT win whenever it names
an existing column: `load_dataset` checks the three hardcoded schema
headers before ever consulting `pick_name_column` (which is what
honors the override), so with override `"X"` on a table that also has
`"Full Name (English)"`, the hardcoded header is selected. -/
theorem C1_counterexample :
    "X" ∈ ovFrame.cols ∧
    (load_dataset (some "X") (.ok ovFrame) emptyState).1 = .ok () ∧
    (load_dataset (some "X") (.ok ovFrame) emptyState).2.nameCol
      = "Full Name (English)" := by decide


theorem buildLowerMap_eq_reverse_find (cols : List String) (k : String) :
    buildLowerMap cols k = cols.reverse.find? (fun c => pyLowerStr c == k) := by
  unfold buildLowerMap
  suffices h : ∀ (cols : List String) (m : String → Option String),
      (cols.foldl (fun m c => fun k => if pyLowerStr c == k then some c else m k) m) k
        = (cols.reverse.find? (fun c => pyLowerStr c == k)).or (m k) by
    rw [h]
    cases cols.reverse.find? (fun c => pyLowerStr c == k) <;> rfl
  intro cols
  induction cols with
  | nil => intro m; rfl
  | cons c cs ih =>
    intro m
    rw [List.foldl_cons, ih, List.reverse_cons, List.find?_append]
    cases hfind : cs.reverse.find? (fun c => pyLowerStr c == k) with
    | some c' => rfl
    | none =>
      simp only [Option.none_or, List.find?_cons, List.find?_nil]
      by_cases hc : pyLowerStr c == k
      · rw [if_pos hc]
        simp [hc]
      · rw [if_neg hc]
        simp only [hc]
        rfl

/-- The amended name-column resolution, in the spec's vocabulary:
the three hardcoded schema headers first; then a non-empty override
naming an existing column; then the first priority-list candidate
matching a column case-insensitively, resolved to the LAST column in
table order with that lowercased name (the dict-comprehension
overwrite); finally the textiness heuristic (shared with the
implementation — the claim treats step 3 as opaque). -/
def specSelectNameColumn (override : Option String) (f : Frame) : String :=
  if "Full Name (English)" ∈ f.cols then "Full Name (English)"
  else if "Full Name (Marathi)" ∈ f.cols then "Full Name (Marathi)"
  else if "Full Name" ∈ f.cols then "Full Name"
  else
    match override with
    | some o =>
      if o ≠ "" ∧ o ∈ f.cols then o
      else
        match PREFERRED_NAME_COLUMNS.findSome? (fun cand =>
          f.cols.reverse.find? (fun c => pyLowerStr c == pyLowerStr cand)) with
        | some c => c
        | none => heuristicPick f
    | none =>
      match PREFERRED_NAME_COLUMNS.findSome? (fun cand =>
          f.cols.reverse.find? (fun c => pyLowerStr c == pyLowerStr cand)) with
      | some c => c
      | none => heuristicPick f

theorem pickByHeader_eq (f : Frame) :
    pickByHeader f = PREFERRED_NAME_COLUMNS.findSome? (fun cand =>
      f.cols.reverse.find? (fun c => pyLowerStr c == pyLowerStr cand)) := by
  unfold pickByHeader
  congr 1
  funext cand
  exact buildLowerMap_eq_reverse_find f.cols (pyLowerStr cand)

/-- C1 (amended): the name column of every loaded table is resolved in
this order, first match winning — hardcoded schema headers
("Full Name (English)", "Full Name (Marathi)", "Full Name"); then a
non-empty override naming an existing column; then the first
priority-list candidate with a case-insensitive column match (the last
such column in table order); then the textiness heuristic. -/
theorem C1_amended_resolution_order (override : Option String) (f : Frame) :
    chooseNameCol override f = specSelectNameColumn override f := by
  unfold chooseNameCol specSelectNameColumn pick_name_column
  rw [pickByHeader_eq]

/-! ## C5: internal columns in API output -/

/-- A table whose only (texty) column is named with the internal
marker. -/
def intFrame : Frame := ⟨["_n"], [["hello"]]⟩

/-- C5 (counterexample): when the selected name column itself starts
with the internal marker, `build_display_cols` DOES expose it — it
places the name column first without checking the marker, so the
loaded display-column list contains an underscore-prefixed column,
contradicting the claim's "including when the selected name column
itself starts with the marker". -/
theorem C5_counterexample :
    (load_dataset none (.ok intFrame) emptyState).2.nameCol = "_n" ∧
    (load_dataset none (.ok intFrame) emptyState).2.displayCols = ["_n"] ∧
    underscoreMarked "_n" = true := by decide

theorem mem_guard_foldl {α : Type} (q : α → Prop) (p : List α → α → Prop)
    [inst : ∀ acc x, Decidable (p acc x)]
    (hp : ∀ acc x, p acc x → q x) :
    ∀ (l init : List α) (c : α),
      c ∈ l.foldl (fun acc x => if p acc x then acc ++ [x] else acc) init →
      c ∈ init ∨ (c ∈ l ∧ q c) := by
  intro l
  induction l with
  | nil =>
    intro init c hc
    exact Or.inl hc
  | cons x xs ih =>
    intro init c hc
    rw [List.foldl_cons] at hc
    rcases ih _ c hc with h | ⟨hx, hq⟩
    · by_cases hpx : p init x
      · rw [if_pos hpx] at h
        rcases List.mem_append.mp h with h | h
        · exact Or.inl h
        · cases List.mem_singleton.mp h
          exact Or.inr ⟨List.mem_cons_self _ _, hp _ _ hpx⟩
      · rw [if_neg hpx] at h
        exact Or.inl h
    · exact Or.inr ⟨List.mem_cons_of_mem x hx, hq⟩

theorem lookup_rows_shape {st : DState} {nm : String}
    {res : Nat × List (List (String × String))}
    (hok : (lookup st nm).2 = .ok res) :
    ∃ rs : List (List String), res.2 = rs.map (rowRecord st.df.cols) := by
  simp only [lookup] at hok
  split at hok
  · simp at hok
  · split at hok
    · split at hok
      · simp at hok
      · simp only [Except.ok.injEq] at hok
        exact ⟨_, by rw [← hok]⟩
    · simp only [Except.ok.injEq] at hok
      exact ⟨_, by rw [← hok]⟩

/-- C5 (amended): underscore-marked (internal) columns never appear in
`meta().columns` nor among the keys of any row returned by `lookup`;
`build_display_cols` never emits an underscore-marked column either,
with the single exception of the selected name column itself, which it
places first unconditionally. -/
theorem C5_amended_internal_hidden :
    (∀ (st : DState) (c : String), c ∈ (meta st).2.2.1 →
       underscoreMarked c = false) ∧
    (∀ (st : DState) (nm : String) (res : Nat × List (List (String × String)))
       (row : List (String × String)) (kv : String × String),
       (lookup st nm).2 = .ok res → row ∈ res.2 → kv ∈ row →
       underscoreMarked kv.1 = false) ∧
    (∀ (f : Frame) (ncol c : String), c ∈ build_display_cols f ncol →
       c = ncol ∨ underscoreMarked c = false) := by
  refine ⟨?_, ?_, ?_⟩
  · intro st c hc
    simpa using (List.mem_filter.mp hc).2
  · intro st nm res row kv hok hrow hkv
    obtain ⟨rs, hrs⟩ := lookup_rows_shape hok
    rw [hrs] at hrow
    obtain ⟨r, -, rfl⟩ := List.mem_map.mp hrow
    have := (List.mem_filter.mp hkv).2
    simpa using this
  · intro f ncol c hc
    have hpref : ∀ c ∈ DISPLAY_COLS_PREFERENCE, underscoreMarked c = false := by decide
    unfold build_display_cols at hc
    rcases mem_guard_foldl (fun x => underscoreMarked x = false)
        (fun acc x => x ∉ acc ∧ ¬ underscoreMarked x)
        (fun acc x hx => by simpa using hx.2) f.cols _ c hc with h | ⟨-, hq⟩
    · rcases mem_guard_foldl (fun _ => True)
          (fun acc x => x ∈ f.cols ∧ x ∉ acc) (fun _ _ _ => trivial)
          DISPLAY_COLS_PREFERENCE _ c h with h1 | ⟨hmem, -⟩
      · rw [if_neg (List.not_mem_nil ncol)] at h1
        exact Or.inl (List.mem_singleton.mp h1)
      · exact Or.inr (hpref c hmem)
    · exact Or.inr hq

/-- C5 (witness): the amended theorem applied at concrete inputs —
`meta` on the loaded one-row table, a `lookup` response row, and a
display-column list over two plain columns. -/
theorem C5_amended_witness :
    underscoreMarked "Full Name" = false ∧
    underscoreMarked "Full Name" = false ∧
    ("b" = "a" ∨ underscoreMarked "b" = false) :=
  ⟨C5_amended_internal_hidden.1 rxState "Full Name" (by decide),
   C5_amended_internal_hidden.2.1 rxState "abc" (1, [[("Full Name", "abc")]])
     [("Full Name", "abc")] ("Full Name", "abc") (by decide) (by decide) (by decide),
   C5_amended_internal_hidden.2.2 ⟨["a", "b"], []⟩ "a" "b" (by decide)⟩

/-! ## C6: identifier-like columns and the textiness heuristic -/

/-- A table whose identifier-like column is accompanied by a texty
column named `""` (the empty string). -/
def epicFrame : Frame := ⟨["ID", ""], [["AB12345", "hello"]]⟩

/-- C6 (counterexample): an identifier-like column IS selected although
a non-identifier-like column exists and no header hint or override is
present — `return best or df.columns[0]` treats the winning column
named `""` as falsy and falls back to the first column, which is the
identifier-like one. -/
theorem C6_counterexample :
    pick_name_column none epicFrame = "ID" ∧
    _is_probably_epic (getCol epicFrame "ID") = true ∧
    "" ∈ epicFrame.cols ∧
    _is_probably_epic (getCol epicFrame "") = false := by decide

theorem _alpha_ratio_nonneg (x : String) : 0 ≤ _alpha_ratio x := by
  unfold _alpha_ratio
  split
  · exact le_refl 0
  · rw [qdiv_eq]
    exact div_nonneg (Nat.cast_nonneg _) (Nat.cast_nonneg _)

theorem qmean_nonneg {l : List ℚ} (h : ∀ x ∈ l, 0 ≤ x) : 0 ≤ qmean l := by
  rw [qmean_eq]
  exact div_nonneg (List.sum_nonneg h) (Nat.cast_nonneg _)

theorem heuristic_fold_some {f : Frame} :
    ∀ (cols : List String) (acc : Option String × ℚ) (b : String),
      (cols.foldl (heuristicStep f) acc).1 = some b →
      acc.1 = some b ∨ (b ∈ cols ∧ _is_probably_epic (getCol f b) = false) := by
  intro cols
  induction cols with
  | nil =>
    intro acc b h
    exact Or.inl h
  | cons c cs ih =>
    intro acc b h
    rw [List.foldl_cons] at h
    rcases ih _ b h with h1 | ⟨hmem, hep⟩
    · unfold heuristicStep at h1
      by_cases he : _is_probably_epic (getCol f c)
      · rw [if_pos he] at h1
        exact Or.inl h1
      · rw [if_neg he] at h1
        by_cases hlt : acc.2 < qmean ((sample300 (getCol f c)).map _alpha_ratio)
        · rw [if_pos hlt] at h1
          simp only [Option.some.injEq] at h1
          cases h1
          exact Or.inr ⟨List.mem_cons_self _ _, Bool.of_not_eq_true he⟩
        · rw [if_neg hlt] at h1
          exact Or.inl h1
    · exact Or.inr ⟨List.mem_cons_of_mem c hmem, hep⟩

theorem heuristic_fold_stay_none {f : Frame} :
    ∀ (cols : List String) (acc : Option String × ℚ),
      (cols.foldl (heuristicStep f) acc).1 = none → acc.1 = none := by
  intro cols
  induction cols with
  | nil =>
    intro acc h
    exact h
  | cons c cs ih =>
    intro acc h
    rw [List.foldl_cons] at h
    have h1 := ih _ h
    unfold heuristicStep at h1
    by_cases he : _is_probably_epic (getCol f c)
    · rwa [if_pos he] at h1
    · rw [if_neg he] at h1
      by_cases hlt : acc.2 < qmean ((sample300 (getCol f c)).map _alpha_ratio)
      · rw [if_pos hlt] at h1
        cases h1
      · rwa [if_neg hlt] at h1

theorem heuristic_fold_none {f : Frame} :
    ∀ (cols : List String) (acc : Option String × ℚ),
      (cols.foldl (heuristicStep f) acc).1 = none → acc.2 = -1 →
      ∀ c ∈ cols, _is_probably_epic (getCol f c) = true := by
  intro cols
  induction cols with
  | nil =>
    intro acc _ _ c hc
    cases hc
  | cons c cs ih =>
    intro acc h hacc c' hc'
    rw [List.foldl_cons] at h
    by_cases he : _is_probably_epic (getCol f c)
    · have hstep : heuristicStep f acc c = acc := by
        unfold heuristicStep
        rw [if_pos he]
      rw [hstep] at h
      rcases List.mem_cons.mp hc' with rfl | hc'
      · exact he
      · exact ih _ h hacc c' hc'
    · exfalso
      have hscore : (0 : ℚ) ≤ qmean ((sample300 (getCol f c)).map _alpha_ratio) :=
        qmean_nonneg (fun x hx => by
          obtain ⟨y, -, rfl⟩ := List.mem_map.mp hx
          exact _alpha_ratio_nonneg y)
      have hlt : acc.2 < qmean ((sample300 (getCol f c)).map _alpha_ratio) := by
        rw [hacc]; linarith
      have hstep : heuristicStep f acc c
          = (some c, qmean ((sample300 (getCol f c)).map _alpha_ratio)) := by
        unfold heuristicStep
        rw [if_neg he, if_pos hlt]
      rw [hstep] at h
      have := heuristic_fold_stay_none cs _ h
      cases this

/-- C6 (amended): identifier-likeness holds iff the full-table match
fraction is at least one half or the sampled mean digit fraction is at
least one half; and — provided no header hint matches, no override is
set, and every column name is non-empty — a column classified
identifier-like is never picked while a non-identifier-like column
exists: the heuristic's choice is itself non-identifier-like. -/
theorem C6_amended_identifier_exclusion (f : Frame)
    (hheader : pickByHeader f = none)
    (hnames : ∀ c ∈ f.cols, c ≠ "")
    (hsome : ∃ c ∈ f.cols, _is_probably_epic (getCol f c) = false) :
    (∀ cells : List String, _is_probably_epic cells = true ↔
      ((1 : ℚ)/2 ≤ qmean (cells.map (fun v => if epicMatch v then (1 : ℚ) else 0)) ∨
       (1 : ℚ)/2 ≤ qmean ((sample300 cells).map digitFrac))) ∧
    pick_name_column none f ∈ f.cols ∧
    _is_probably_epic (getCol f (pick_name_column none f)) = false := by
  have hhalf : Rat.divInt 1 2 = (1 : ℚ)/2 := by
    rw [Rat.divInt_eq_div]
    norm_num
  constructor
  · intro cells
    unfold _is_probably_epic
    rw [hhalf]
    simp [Bool.or_eq_true, decide_eq_true_iff]
  · cases hfold : (f.cols.foldl (heuristicStep f) (none, -1)).1 with
    | none =>
      exfalso
      obtain ⟨c, hc, hep⟩ := hsome
      have := heuristic_fold_none f.cols (none, -1) hfold rfl c hc
      rw [this] at hep
      cases hep
    | some b =>
      have hb : b ∈ f.cols ∧ _is_probably_epic (getCol f b) = false := by
        rcases heuristic_fold_some f.cols (none, -1) b hfold with h | h
        · cases h
        · exact h
      have hpick : pick_name_column none f = b := by
        unfold pick_name_column heuristicPick
        rw [hheader, hfold]
        simp only []
        rw [if_neg (hnames b hb.1)]
      rw [hpick]
      exact hb

/-- C6 (witness): the amended theorem instantiated on a table with an
identifier-like column `"ID"` and a texty column `"notes"`. -/
theorem C6_amended_witness :
    pick_name_column none (⟨["ID", "notes"],
      [["AB12345", "hello"], ["CD23456", "world"]]⟩ : Frame)
        ∈ (⟨["ID", "notes"], [["AB12345", "hello"], ["CD23456", "world"]]⟩ : Frame).cols ∧
    _is_probably_epic (getCol
      (⟨["ID", "notes"], [["AB12345", "hello"], ["CD23456", "world"]]⟩ : Frame)
      (pick_name_column none
        (⟨["ID", "notes"], [["AB12345", "hello"], ["CD23456", "world"]]⟩ : Frame)))
      = false :=
  (C6_amended_identifier_exclusion
    ⟨["ID", "notes"], [["AB12345", "hello"], ["CD23456", "world"]]⟩
    (by decide) (by decide) ⟨"notes", by decide, by decide⟩).2

/-! ## C8: suggest with an empty (normalized) query -/

/-- A table whose name values exercise trimming: whitespace-only,
padded, and plain. -/
def wsFrame : Frame := ⟨["Full Name"], [["  "], [" Amit "], ["Amit"]]⟩

/-- The snapshot after loading `wsFrame`. -/
def wsState : DState := (load_dataset none (.ok wsFrame) emptyState).2

/-- C8 (counterexample): `suggest("")` does not return "values of the
name column": it strips first, so `"  "` — a non-empty raw value — is
dropped, `" Amit "` collapses with `"Amit"`, and the returned string is
the trimmed form.  With limit 10 the claim would require the non-empty
raw values to appear; the code returns `["Amit"]`. -/
theorem C8_counterexample :
    (suggest wsState "" 10).2 = .ok ["Amit"] ∧
    "  " ∈ getCol wsState.df "Full Name" ∧ "  " ≠ "" ∧ "  " ∉ ["Amit"] ∧
    " Amit " ∈ getCol wsState.df "Full Name" ∧ " Amit " ∉ ["Amit"] := by decide

theorem pdDropDup_go_sublist (l : List String) :
    ∀ seen, List.Sublist (pdDropDup.go seen l) l := by
  induction l with
  | nil =>
    intro seen
    exact List.Sublist.refl []
  | cons x xs ih =>
    intro seen
    rw [pdDropDup.go]
    by_cases hx : x ∈ seen
    · rw [if_pos hx]
      exact (ih seen).cons x
    · rw [if_neg hx]
      exact (ih (x :: seen)).cons₂ x

theorem pdDropDup_go_nodup (l : List String) :
    ∀ seen, (pdDropDup.go seen l).Nodup ∧ ∀ x ∈ pdDropDup.go seen l, x ∉ seen := by
  induction l with
  | nil =>
    intro seen
    exact ⟨List.nodup_nil, by intro x hx; cases hx⟩
  | cons x xs ih =>
    intro seen
    rw [pdDropDup.go]
    by_cases hx : x ∈ seen
    · rw [if_pos hx]
      exact ih seen
    · rw [if_neg hx]
      obtain ⟨hnd, hdisj⟩ := ih (x :: seen)
      refine ⟨List.nodup_cons.mpr ⟨fun hmem => ?_, hnd⟩, ?_⟩
      · exact hdisj x hmem (List.mem_cons_self x seen)
      · intro y hy
        rcases List.mem_cons.mp hy with rfl | hy'
        · exact hx
        · exact fun hys => hdisj y hy' (List.mem_cons_of_mem x hys)

theorem pdDropDup_go_complete (l : List String) :
    ∀ seen v, v ∈ l → v ∈ pdDropDup.go seen l ∨ v ∈ seen := by
  induction l with
  | nil =>
    intro seen v hv
    cases hv
  | cons x xs ih =>
    intro seen v hv
    rw [pdDropDup.go]
    by_cases hx : x ∈ seen
    · rw [if_pos hx]
      rcases List.mem_cons.mp hv with rfl | hv'
      · exact Or.inr hx
      · exact ih seen v hv'
    · rw [if_neg hx]
      rcases List.mem_cons.mp hv with rfl | hv'
      · exact Or.inl (List.mem_cons_self v _)
      · rcases ih (x :: seen) v hv' with h | h
        · exact Or.inl (List.mem_cons_of_mem x h)
        · rcases List.mem_cons.mp h with rfl | h'
          · exact Or.inl (List.mem_cons_self v _)
          · exact Or.inr h'

theorem mem_take_or_full {α : Type} {l : List α} {v : α} (n : Nat) (hv : v ∈ l) :
    v ∈ l.take n ∨ (l.take n).length = n := by
  by_cases hlen : l.length ≤ n
  · rw [List.take_of_length_le hlen]
    exact Or.inl hv
  · right
    rw [List.length_take]
    omega

/-- The amended claim's output, stated position-by-position over the
TRIMMED name values: position `i` contributes its value exactly when
that value is non-empty and no earlier position holds the same value
(first occurrence wins, original table order). -/
def specFirstDistinct (vs : List String) : List String :=
  (List.range vs.length).filterMap (fun i =>
    if vs.getD i "" ≠ "" ∧ ∀ j < i, vs.getD j "" ≠ vs.getD i "" then
      some (vs.getD i "") else none)

/-- One left-to-right pass keeping a value iff it is non-empty and did
not occur among the values already walked (`prev`); the bridge between
the code's filter-then-deduplicate pipeline and the positional
description `specFirstDistinct`. -/
def firstKeep (prev : List String) : List String → List String
  | [] => []
  | x :: xs =>
    if x ≠ "" ∧ x ∉ prev then x :: firstKeep (prev ++ [x]) xs
    else firstKeep (prev ++ [x]) xs

theorem pdDropDup_go_eq_firstKeep :
    ∀ (l seen prev : List String),
      (∀ v : String, v ≠ "" → (v ∈ seen ↔ v ∈ prev)) →
      pdDropDup.go seen (l.filter (fun v => v ≠ "")) = firstKeep prev l := by
  intro l
  induction l with
  | nil =>
    intro seen prev _
    rfl
  | cons x xs ih =>
    intro seen prev hmem
    rw [List.filter_cons, firstKeep]
    by_cases hx : x = ""
    · rw [if_neg (by simp [hx]), if_neg (by simp [hx])]
      refine ih seen (prev ++ [x]) (fun v hv => ?_)
      rw [List.mem_append]
      constructor
      · intro hs
        exact Or.inl ((hmem v hv).mp hs)
      · rintro (hp | hp)
        · exact (hmem v hv).mpr hp
        · rw [List.mem_singleton.mp hp, hx] at hv
          exact absurd rfl hv
    · rw [if_pos (by simp [hx]), pdDropDup.go]
      by_cases hseen : x ∈ seen
      · have hprev : x ∈ prev := (hmem x hx).mp hseen
        rw [if_pos hseen, if_neg (by simp [hprev])]
        refine ih seen (prev ++ [x]) (fun v hv => ?_)
        rw [List.mem_append, List.mem_singleton]
        constructor
        · intro hs
          exact Or.inl ((hmem v hv).mp hs)
        · rintro (hp | rfl)
          · exact (hmem v hv).mpr hp
          · exact hseen
      · have hprev : x ∉ prev := fun hp => hseen ((hmem x hx).mpr hp)
        rw [if_neg hseen, if_pos ⟨hx, hprev⟩]
        congr 1
        refine ih (x :: seen) (prev ++ [x]) (fun v hv => ?_)
        rw [List.mem_cons, List.mem_append, List.mem_singleton]
        constructor
        · rintro (rfl | hs)
          · exact Or.inr rfl
          · exact Or.inl ((hmem v hv).mp hs)
        · rintro (hp | rfl)
          · exact Or.inr ((hmem v hv).mpr hp)
          · exact Or.inl rfl

theorem firstKeep_eq_indexed :
    ∀ (l prev : List String),
      firstKeep prev l = (List.range l.length).filterMap (fun i =>
        if l.getD i "" ≠ "" ∧ l.getD i "" ∉ prev ∧
            ∀ j < i, l.getD j "" ≠ l.getD i "" then
          some (l.getD i "") else none) := by
  intro l
  induction l with
  | nil =>
    intro prev
    rfl
  | cons x xs ih =>
    intro prev
    set F := (fun i => if (x :: xs).getD i "" ≠ "" ∧ (x :: xs).getD i "" ∉ prev ∧
        (∀ j < i, (x :: xs).getD j "" ≠ (x :: xs).getD i "") then
        some ((x :: xs).getD i "") else none) with hF
    have htail : (F ∘ Nat.succ)
        = (fun i => if xs.getD i "" ≠ "" ∧ xs.getD i "" ∉ prev ++ [x] ∧
            (∀ j < i, xs.getD j "" ≠ xs.getD i "") then
          some (xs.getD i "") else none) := by
      rw [hF]
      funext i
      simp only [Function.comp, List.getD_cons_succ]
      apply if_congr _ rfl rfl
      constructor
      · rintro ⟨h1, h2, h3⟩
        refine ⟨h1, ?_, fun j hj => by simpa using h3 (j + 1) (by omega)⟩
        rw [List.mem_append, List.mem_singleton]
        rintro (hp | hp)
        · exact h2 hp
        · have hx0 : x ≠ xs.getD i "" := by simpa using h3 0 (Nat.succ_pos i)
          exact hx0 hp.symm
      · rintro ⟨h1, h2, h3⟩
        rw [List.mem_append, List.mem_singleton] at h2
        push_neg at h2
        refine ⟨h1, h2.1, fun j hj => ?_⟩
        cases j with
        | zero =>
          simp only [List.getD_cons_zero]
          exact fun hxe => h2.2 hxe.symm
        | succ k =>
          simp only [List.getD_cons_succ]
          exact h3 k (by omega)
    rw [firstKeep, List.length_cons, List.range_succ_eq_map]
    by_cases hcond : x ≠ "" ∧ x ∉ prev
    · have hf0 : F 0 = some x := by
        rw [hF]
        simp only [List.getD_cons_zero]
        rw [if_pos ⟨hcond.1, hcond.2,
          fun j hj => absurd hj (Nat.not_lt_zero j)⟩]
      rw [if_pos hcond, List.filterMap_cons_some hf0, List.filterMap_map,
        htail, ih (prev ++ [x])]
    · have hf0 : F 0 = none := by
        rw [hF]
        simp only [List.getD_cons_zero]
        exact if_neg (fun hc => hcond ⟨hc.1, hc.2.1⟩)
      rw [if_neg hcond, List.filterMap_cons_none hf0, List.filterMap_map,
        htail, ih (prev ++ [x])]

/-- The code's empty-query pipeline — strip, drop the values empty
after stripping, deduplicate keeping first occurrences — equals the
positional first-occurrence description. -/
theorem pdDropDup_filter_eq_specFirstDistinct (vs : List String) :
    pdDropDup (vs.filter (fun v => v ≠ "")) = specFirstDistinct vs := by
  show pdDropDup.go [] (vs.filter (fun v => v ≠ "")) = specFirstDistinct vs
  rw [pdDropDup_go_eq_firstKeep vs [] [] (fun v hv => Iff.rfl),
    firstKeep_eq_indexed vs []]
  unfold specFirstDistinct
  refine congrArg (fun g => List.filterMap g (List.range vs.length))
    (funext fun i => ?_)
  apply if_congr _ rfl rfl
  constructor
  · rintro ⟨h1, -, h3⟩
    exact ⟨h1, h3⟩
  · rintro ⟨h1, h3⟩
    exact ⟨h1, List.not_mem_nil _, h3⟩

/-- C8 (amended): with a query that is empty after normalization,
`suggest` returns exactly the first `limit` entries of the
first-occurrence-wins sequence of trimmed name values: in original
table order, position `i` contributes its trimmed value precisely when
it is non-empty and no earlier position holds the same trimmed value,
and the list is truncated to the first `limit` entries. -/
theorem C8_amended_empty_query (st : DState) (q : String) (limit : Nat)
    (h : strip_marks q = "") :
    (suggest st q limit).2
      = .ok ((specFirstDistinct ((getCol st.df st.nameCol).map pyStrip)).take limit) := by
  simp only [suggest, h, if_pos]
  rw [pdDropDup_filter_eq_specFirstDistinct]

/-- C8 (witness): the amended theorem instantiated on the loaded
whitespace fixture with the empty query and limit 2. -/
theorem C8_amended_witness :
    (suggest wsState "" 2).2
      = .ok ((specFirstDistinct ((getCol wsState.df wsState.nameCol).map pyStrip)).take 2) :=
  C8_amended_empty_query wsState "" 2 (by decide)

/-! ## C3: exact match precedence, then substring fallback -/

/-- A one-row table with name `"Ravi"`. -/
def raviFrame : Frame := ⟨["Full Name"], [["Ravi"]]⟩

/-- The snapshot after loading `raviFrame`. -/
def raviState : DState := (load_dataset none (.ok raviFrame) emptyState).2

/-- C3 (counterexample): with no exact match for `"r.vi"`, the claim
says the fallback returns the rows whose trimmed case-folded name
contains `"r.vi"` as a substring — none here — but the code returns
the `"Ravi"` row, because the fallback hands the key to
`Series.str.contains` as a regular expression and `.` matches the
`a`. -/
theorem C3_counterexample :
    (lookup raviState "r.vi").2 = .ok (1, [[("Full Name", "Ravi")]]) ∧
    getCol raviState.df "_name_key" = ["ravi"] ∧
    pyLowerStr (pyStrip "r.vi") = "r.vi" ∧
    ¬ ("r.vi".data <:+: "ravi".data) := by decide

theorem zip_mask_filter (rows : List (List String)) (p : List String → Bool) :
    ((rows.zip (rows.map p)).filter (fun rb => rb.2)).map (fun rb => rb.1)
      = rows.filter p := by
  induction rows with
  | nil => rfl
  | cons r rs ih =>
    rw [List.map_cons, List.zip_cons_cons, List.filter_cons, List.filter_cons]
    by_cases hp : p r
    · rw [if_pos (by simpa using hp), if_pos (by simpa using hp), List.map_cons, ih]
    · rw [if_neg (by simpa using hp), if_neg (by simpa using hp), ih]

theorem maskFilter_map (f : Frame) (p : List String → Bool) :
    (maskFilter f (f.rows.map p)).rows = f.rows.filter p := by
  unfold maskFilter
  exact zip_mask_filter f.rows p

theorem getCol_eq {f : Frame} {c : String} {i : Nat}
    (h : f.cols.findIdx? (fun c' => c' == c) = some i) :
    getCol f c = f.rows.map (fun r => r.getD i "") := by
  unfold getCol
  rw [h]

theorem reSearch_litRE_eq (l s : List Char) :
    reSearch (litRE l) s = decide (l <:+: s) := by
  cases hb : reSearch (litRE l) s
  · have hni : ¬ (l <:+: s) := fun hi => by
      rw [reSearch_litRE.mpr hi] at hb
      cases hb
    rw [decide_eq_false hni]
  · rw [decide_eq_true (reSearch_litRE.mp hb)]

/-- C3 (amended): for a non-blank input on a snapshot whose
`_name_key` column holds the trimmed case-folded name values, (a) when
at least one exact match exists `lookup` returns exactly the
exact-match rows — never substring-only matches — and (b) when no
exact match exists and the key is free of regex metacharacters, the
fallback returns exactly the rows whose trimmed case-folded name value
contains the key as a substring (case-folding only, no diacritic
stripping). -/
theorem C3_amended_exact_then_fallback (st : DState) (nm : String) (ik nk : Nat)
    (hik : st.df.cols.findIdx? (fun c => c == "_name_key") = some ik)
    (hnk : st.df.cols.findIdx? (fun c => c == st.nameCol) = some nk)
    (hkey : ∀ r ∈ st.df.rows, r.getD ik "" = pyLowerStr (pyStrip (r.getD nk "")))
    (hnm : pyStrip nm ≠ "") :
    ((∃ r ∈ st.df.rows,
        pyLowerStr (pyStrip (r.getD nk "")) = pyLowerStr (pyStrip nm)) →
      (lookup st nm).2 = .ok
        ((st.df.rows.filter (fun r =>
            pyLowerStr (pyStrip (r.getD nk "")) == pyLowerStr (pyStrip nm))).length,
         (st.df.rows.filter (fun r =>
            pyLowerStr (pyStrip (r.getD nk "")) == pyLowerStr (pyStrip nm))).map
           (rowRecord st.df.cols))) ∧
    ((¬ ∃ r ∈ st.df.rows,
        pyLowerStr (pyStrip (r.getD nk "")) = pyLowerStr (pyStrip nm)) →
     (∀ c ∈ (pyLowerStr (pyStrip nm)).data, isRegexMeta c = false) →
      (lookup st nm).2 = .ok
        ((st.df.rows.filter (fun r =>
            decide ((pyLowerStr (pyStrip nm)).data <:+:
              (pyLowerStr (pyStrip (r.getD nk ""))).data))).length,
         (st.df.rows.filter (fun r =>
            decide ((pyLowerStr (pyStrip nm)).data <:+:
              (pyLowerStr (pyStrip (r.getD nk ""))).data))).map
           (rowRecord st.df.cols))) := by
  have hexact : (maskFilter st.df ((getCol st.df "_name_key").map
      (fun v => v == pyLowerStr (pyStrip nm)))).rows
      = st.df.rows.filter (fun r =>
          pyLowerStr (pyStrip (r.getD nk "")) == pyLowerStr (pyStrip nm)) := by
    rw [getCol_eq hik, List.map_map]
    have hcongr : st.df.rows.map ((fun v => v == pyLowerStr (pyStrip nm))
          ∘ fun r => r.getD ik "")
        = st.df.rows.map (fun r =>
            pyLowerStr (pyStrip (r.getD nk "")) == pyLowerStr (pyStrip nm)) :=
      List.map_congr_left (fun r hr => by
        simp only [Function.comp]
        rw [hkey r hr])
    rw [hcongr, maskFilter_map]
  constructor
  · intro hex
    obtain ⟨r0, hr0, heq0⟩ := hex
    simp only [lookup]
    rw [if_neg hnm, hexact]
    have hne : st.df.rows.filter (fun r =>
        pyLowerStr (pyStrip (r.getD nk "")) == pyLowerStr (pyStrip nm)) ≠ [] :=
      List.ne_nil_of_mem (List.mem_filter.mpr ⟨hr0, beq_iff_eq.mpr heq0⟩)
    rw [if_neg (by simpa [List.isEmpty_iff] using hne)]
    simp only [List.length_map]
  · intro hnone hmeta
    have hempty : st.df.rows.filter (fun r =>
        pyLowerStr (pyStrip (r.getD nk "")) == pyLowerStr (pyStrip nm)) = [] := by
      rw [List.filter_eq_nil_iff]
      intro r hr hbeq
      exact hnone ⟨r, hr, beq_iff_eq.mp hbeq⟩
    simp only [lookup]
    rw [if_neg hnm, hexact]
    rw [if_pos (by simpa [List.isEmpty_iff] using hempty)]
    simp only [reParse_lit hmeta]
    rw [getCol_eq hnk]
    simp only [List.map_map]
    have hcongr2 : st.df.rows.map ((fun v => reSearch (litRE (pyLowerStr (pyStrip nm)).data)
          (pyLowerStr (pyStrip v)).data) ∘ fun r => r.getD nk "")
        = st.df.rows.map (fun r =>
            decide ((pyLowerStr (pyStrip nm)).data <:+:
              (pyLowerStr (pyStrip (r.getD nk ""))).data)) :=
      List.map_congr_left (fun r _ => by
        simp only [Function.comp]
        rw [reSearch_litRE_eq])
    rw [hcongr2, maskFilter_map]
    simp only [List.length_map]

/-- A two-row table: an exact name and a longer superstring name. -/
def ravi2Frame : Frame := ⟨["Full Name"], [["Ravi"], ["Ravi Shankar"]]⟩

/-- The snapshot after loading `ravi2Frame`. -/
def ravi2State : DState := (load_dataset none (.ok ravi2Frame) emptyState).2

/-- C3 (witness): the amended theorem instantiated on the loaded
two-row table — part (a) at input `"Ravi"` (an exact match exists, so
the superstring row is not returned), part (b) at input `"Shankar"`
(no exact match; the substring fallback applies). -/
theorem C3_amended_witness :
    (lookup ravi2State "Ravi").2 = .ok
      ((ravi2State.df.rows.filter (fun r =>
          pyLowerStr (pyStrip (r.getD 0 "")) == pyLowerStr (pyStrip "Ravi"))).length,
       (ravi2State.df.rows.filter (fun r =>
          pyLowerStr (pyStrip (r.getD 0 "")) == pyLowerStr (pyStrip "Ravi"))).map
         (rowRecord ravi2State.df.cols)) ∧
    (lookup ravi2State "Shankar").2 = .ok
      ((ravi2State.df.rows.filter (fun r =>
          decide ((pyLowerStr (pyStrip "Shankar")).data <:+:
            (pyLowerStr (pyStrip (r.getD 0 ""))).data))).length,
       (ravi2State.df.rows.filter (fun r =>
          decide ((pyLowerStr (pyStrip "Shankar")).data <:+:
            (pyLowerStr (pyStrip (r.getD 0 ""))).data))).map
         (rowRecord ravi2State.df.cols)) :=
  ⟨(C3_amended_exact_then_fallback ravi2State "Ravi" 1 0
      (by decide) (by decide) (by decide) (by decide)).1
      ⟨["Ravi", "ravi", "ravi"], by decide, by decide⟩,
   (C3_amended_exact_then_fallback ravi2State "Shankar" 1 0
      (by decide) (by decide) (by decide) (by decide)).2
      (by decide) (by decide)⟩
